import Mathlib

/-!
# Verification of the kRPC mission scripts (hill-climb optimizer and maneuver planner)

Shallow embedding, in Lean 4, of the parts of the repository that the frozen
claims are about:

* `src/hillclimb.py` — the derivative-free optimizer `hill_climb`;
* `src/krpcutils.py` — `auto_stage`, `calculate_burn_time`, `execute_next_node`,
  `add_node`, `time_ascending_descending_nodes`, `score_inclination`,
  `inclination_change`;
* `src/circularise.py` — `Circularise.score_eccenticity` /
  `Circularise.do_circularisation`.

Modelling conventions:

* Python floats are modelled as exact rationals (`ℚ`); none of the claims under
  consideration depends on IEEE-754 rounding.  The only exception is
  `calculate_burn_time`, whose specification is a closed-form expression in
  `exp`, which is modelled over `ℝ` with `Real.exp`.
* The constant `math.pi` is itself a rational number at runtime (a double);
  it is embedded as the rational `piFloat` below.  No claim depends on its value.
* The unbounded `while improved:` loop of `hill_climb` and the unbounded
  staging loop of `auto_stage` are modelled with explicit fuel / with the
  finite list of sensor readings the environment supplies; `none` means the
  Python loop has not terminated within that budget.
* Queries against the live kRPC connection (orbit elements, thrust, the orbit
  preview of a hypothetical node, ...) are fields of explicit environment
  structures, mirroring the spec's "external oracle" view.
-/

namespace KRPC

/-! ## `src/hillclimb.py` — the optimizer

The value-level embedding ignores Python list aliasing (every claim about
values is insensitive to it); a second, heap-instrumented embedding further
below models aliasing explicitly for the frame claim. -/

/-- The loop `for b in range(0, len(data)): if c & (1 << b) != 0: inc[b] += step`
(`src/hillclumb.py` is `src/hillclimb.py` lines 36–39): starting at index `i`,
add `δ` to every element whose index satisfies `pred`. -/
def applyMaskFrom (pred : ℕ → Bool) (δ : ℚ) : ℕ → List ℚ → List ℚ
  | _, [] => []
  | i, x :: xs => (if pred i then x + δ else x) :: applyMaskFrom pred δ (i + 1) xs

/-- Perturbation of a whole vector: indices are counted from `0`. -/
def applyMask (pred : ℕ → Bool) (δ : ℚ) (v : List ℚ) : List ℚ :=
  applyMaskFrom pred δ 0 v

/-- Candidate generation of one inner iteration (`src/hillclimb.py` lines 26–40):
for every bit mask `c` in `range(1, 2 ** len(data))`, append the copy of
`current_best` with `+step` on the set bits and the copy with `-step` on the
set bits (`candidates += [inc, dec]`). -/
def genCandidates (best : List ℚ) (n : ℕ) (stepv : ℚ) : List (List ℚ) :=
  (List.range' 1 (2 ^ n - 1)).foldl
    (fun cands c =>
      cands ++ [applyMask c.testBit stepv best, applyMask c.testBit (-stepv) best])
    []

/-- Scoring scan of one inner iteration (`src/hillclimb.py` lines 42–48):
`improved = False`, then for each candidate in order, if its score is strictly
below the *running* `current_score`, adopt it as `current_best`/`current_score`
and set `improved = True`.  Returns `(current_best, current_score, improved)`. -/
def scanStep (f : List ℚ → ℚ) (acc : List ℚ × ℚ × Bool) (c : List ℚ) :
    List ℚ × ℚ × Bool :=
  if f c < acc.2.1 then (c, f c, true) else acc

/-- One pass of lines 42–48 as a fold of `scanStep` from
`(current_best, current_score, False)`. -/
def scanCandidates (f : List ℚ → ℚ) (cands : List (List ℚ)) (best : List ℚ) (sc : ℚ) :
    List ℚ × ℚ × Bool :=
  cands.foldl (scanStep f) (best, sc, false)

/-- The `while improved:` loop at one step size (`src/hillclimb.py` lines 23–48),
with explicit fuel bounding the number of iterations; `none` models
non-termination within the budget. -/
def innerLoop (f : List ℚ → ℚ) (stepv : ℚ) (n : ℕ) :
    ℕ → List ℚ → ℚ → Option (List ℚ × ℚ)
  | 0, _, _ => none
  | fuel + 1, best, sc =>
    let r := scanCandidates f (genCandidates best n stepv) best sc
    if r.2.2 then innerLoop f stepv n fuel r.1 r.2.1 else some (r.1, r.2.1)

/-- The step schedule `[100, 10, 1, 0.1, 0.01, 0.001]` of `src/hillclimb.py`
line 22 (decimal literals are exact in `ℚ`). -/
def stepSchedule : List ℚ := [100, 10, 1, 1/10, 1/100, 1/1000]

/-- `hill_climb` (`src/hillclimb.py` lines 13–53): evaluate the initial score,
copy the initial data, and run the inner improvement loop once per step of the
schedule; return `current_best`.  `fuel` bounds each step's inner loop. -/
def hill_climb (fuel : ℕ) (data : List ℚ) (f : List ℚ → ℚ) : Option (List ℚ) :=
  (stepSchedule.foldlM
      (fun st stepv => innerLoop f stepv data.length fuel st.1 st.2)
      (data, f data)).map Prod.fst

/-- Spec-side description of a candidate (`spec.md` §4.1): from the current
best, the candidate for the non-empty subset `S` of dimensions adds `δ`
(`+step` or `-step`) at exactly the indices in `S`. -/
def specSubsetPerturb (S : Finset ℕ) (δ : ℚ) (v : List ℚ) : List ℚ :=
  applyMask (fun b => decide (b ∈ S)) δ v

/-- Score function used only as a concrete test input for the adoption-order
analysis of the inner loop: scores `[100] ↦ 5`, `[-100] ↦ 3`, anything
else `↦ 10`. -/
def tieBreakScore : List ℚ → ℚ :=
  fun v => if v = [100] then 5 else if v = [-100] then 3 else 10

/-! ## Heap-instrumented embedding of `hill_climb`

`src/hillclimb.py` manipulates Python list objects: `data.copy()` and
`current_best.copy()` allocate fresh lists, `inc[b] += step` / `dec[b] -= step`
mutate the fresh copies in place, and `current_best = c` rebinds a name to an
existing object.  To settle the frame claim about in-place mutation, this
second embedding makes the object store explicit: a heap of list cells
addressed by allocation order, with every `copy`, indexed write and rebinding
of the source spelled out. -/

/-- The store of Python list objects: cell `a` holds the list allocated
`a`-th.  Reading an unallocated address yields `[]` (never exercised by the
embedded code). -/
structure Heap where
  cells : List (List ℚ)
deriving DecidableEq

/-- Number of allocated cells. -/
def Heap.size (h : Heap) : ℕ := h.cells.length

/-- Dereference address `a`. -/
def Heap.read (h : Heap) (a : ℕ) : List ℚ := h.cells.getD a []

/-- Allocate a fresh list object; returns the new heap and the fresh address. -/
def Heap.alloc (h : Heap) (v : List ℚ) : Heap × ℕ :=
  (⟨h.cells ++ [v]⟩, h.cells.length)

/-- Overwrite the cell at address `a`. -/
def Heap.write (h : Heap) (a : ℕ) (v : List ℚ) : Heap :=
  ⟨h.cells.set a v⟩

/-- The statement `lst[b] += δ` on the list object at address `a`. -/
def Heap.addAt (h : Heap) (a b : ℕ) (δ : ℚ) : Heap :=
  h.write a ((h.read a).set b ((h.read a).getD b 0 + δ))

/-- Lines 34–39 of `src/hillclimb.py` for one mask `c`:
`inc = current_best.copy()`, `dec = current_best.copy()`, then for each
`b < len(data)` with bit `b` of `c` set, `inc[b] += step` and `dec[b] -= step`.
Returns the heap and the addresses of `inc` and `dec`. -/
def buildCandidatePair (h : Heap) (aBest n : ℕ) (stepv : ℚ) (c : ℕ) :
    Heap × ℕ × ℕ :=
  let p1 := h.alloc (h.read aBest)
  let p2 := p1.1.alloc (p1.1.read aBest)
  let h3 := (List.range n).foldl
    (fun hh b =>
      if c.testBit b then (hh.addAt p1.2 b stepv).addAt p2.2 b (-stepv) else hh)
    p2.1
  (h3, p1.2, p2.2)

/-- Lines 26–40 of `src/hillclimb.py`: `candidates = []`, then
`candidates += [inc, dec]` for each mask in `range(1, 2 ** len(data))`.
Returns the heap and the candidate addresses in generation order. -/
def genCandidatesHeap (h : Heap) (aBest n : ℕ) (stepv : ℚ) : Heap × List ℕ :=
  (List.range' 1 (2 ^ n - 1)).foldl
    (fun st c =>
      let r := buildCandidatePair st.1 aBest n stepv c
      (r.1, st.2 ++ [r.2.1, r.2.2]))
    (h, [])

/-- Lines 42–48 of `src/hillclimb.py` on the heap: scoring reads the candidate
objects but allocates and writes nothing (`score_function` is pure per the
claim), and `current_best = c` rebinds the tracked address. -/
def scanCandidatesHeap (f : List ℚ → ℚ) (h : Heap) (addrs : List ℕ)
    (aBest : ℕ) (sc : ℚ) : ℕ × ℚ × Bool :=
  addrs.foldl
    (fun acc a => if f (h.read a) < acc.2.1 then (a, f (h.read a), true) else acc)
    (aBest, sc, false)

/-- The `while improved:` loop on the heap.  Fuel exhaustion returns the heap
reached so far together with `none`. -/
def innerLoopHeap (f : List ℚ → ℚ) (stepv : ℚ) (n : ℕ) :
    ℕ → Heap → ℕ → ℚ → Heap × Option (ℕ × ℚ)
  | 0, h, _, _ => (h, none)
  | fuel + 1, h, aBest, sc =>
    let g := genCandidatesHeap h aBest n stepv
    let r := scanCandidatesHeap f g.1 g.2 aBest sc
    if r.2.2 then innerLoopHeap f stepv n fuel g.1 r.1 r.2.1
    else (g.1, some (r.1, r.2.1))

/-- `hill_climb` on the heap: the argument list lives at `aData`;
`current_best = data.copy()` allocates, then the six scheduled steps run.
Returns the final heap and (unless fuel ran out) the address of
`current_best`, which the function returns to its caller. -/
def hill_climb_heap (fuel : ℕ) (h0 : Heap) (aData : ℕ) (f : List ℚ → ℚ) :
    Heap × Option ℕ :=
  let sc0 := f (h0.read aData)
  let p := h0.alloc (h0.read aData)
  let n := (h0.read aData).length
  let final := stepSchedule.foldl
    (fun (st : Heap × Option (ℕ × ℚ)) stepv =>
      match st.2 with
      | none => st
      | some bs => innerLoopHeap f stepv n fuel st.1 bs.1 bs.2)
    (p.1, some (p.2, sc0))
  (final.1, final.2.map Prod.fst)

/-! ## `src/krpcutils.py` — maneuver utilities

Queries against the live vessel and its orbit become fields of `OrbitEnv`;
the orbit preview of a hypothetical maneuver node (`node.orbit.…`) becomes an
oracle function of the node parameters, per `spec.md` §3. -/

/-- The standard gravity constant `G0 = 9.80665` of `src/krpcutils.py` line 17. -/
noncomputable def G0 : ℝ := 9.80665

/-- `KrpcUtilities.calculate_burn_time` (`src/krpcutils.py` lines 208–216) as a
function of the queried quantities: `force = vessel.available_thrust`,
`isp = vessel.specific_impulse * G0`, `m0 = vessel.mass` and the node's
`delta_v`.  Over `ℝ` because of `math.exp`. -/
noncomputable def calculate_burn_time (force si m0 dv : ℝ) : ℝ :=
  let isp := si * G0
  let m1 := m0 / Real.exp (dv / isp)
  let flow_rate := force / isp
  (m0 - m1) / flow_rate

/-- The initial value of `self.available_thrust` set by `KrpcUtilities.__init__`
(`src/krpcutils.py` line 31). -/
def initialAvailableThrust : ℚ := -100

/-- The `while True:` staging loop of `auto_stage` (`src/krpcutils.py`
lines 158–163), driven by the successive values the sensor
`self.vessel.available_thrust` returns after each `activate_next_stage()`:
each iteration stages once and reads the next value; a positive reading sets
the threshold to it minus 10 and exits.  Returns the new threshold and the
number of staging actions, or `none` when the supplied readings are exhausted
(the Python loop would still be running). -/
def stageLoop : List ℚ → Option (ℚ × ℕ)
  | [] => none
  | t :: rest =>
    if 0 < t then some (t - 10, 1)
    else (stageLoop rest).map (fun p => (p.1, p.2 + 1))

/-- `KrpcUtilities.auto_stage` (`src/krpcutils.py` lines 148–163).  `st` is the
tracked `self.available_thrust` threshold, `obs` the value
`self.vessel.available_thrust` reads during the call (constant until staging),
`post` the readings after successive staging actions.  Returns the new
threshold and how many staging actions the call performed. -/
def auto_stage (st obs : ℚ) (post : List ℚ) : Option (ℚ × ℕ) :=
  let st1 := if st < -10 then obs - 10 else st
  if obs < st1 then stageLoop post else some (st1, 0)

/-- A maneuver node as created by `add_node`: absolute time and the three burn
components. -/
structure NodeParams where
  ut : ℚ
  prograde : ℚ
  radial : ℚ
  normal : ℚ
deriving DecidableEq

/-- `KrpcUtilities.add_node` (`src/krpcutils.py` lines 290–304): `data[0]` is
the node time (mandatory per the docstring — every call site in the repository
passes it, so the `IndexError` of an empty list is modelled by the default),
and missing prograde/radial/normal entries default to `0`. -/
def add_node (data : List ℚ) : NodeParams :=
  ⟨data.getD 0 0, data.getD 1 0, data.getD 2 0, data.getD 3 0⟩

/-- Observable vehicle actions of `execute_next_node`, in call order:
`align_with_node`, `wait_until_time(node.ut - burn_time/2)`, `execute_burn`,
`node.remove()`.  Their interiors are irrelevant to the empty-queue claim and
are recorded as opaque trace entries. -/
inductive VesselAction
  | alignWithNode
  | warpToBurnStart
  | executeBurn
  | removeNode
deriving DecidableEq

/-- Reported (logged) errors of the embedded fragment. -/
inductive LogReport
  | noManeuverPlanned
  | noVesselToCircularise
deriving DecidableEq

/-- `KrpcUtilities.execute_next_node` (`src/krpcutils.py` lines 276–288):
on a non-empty queue it runs the burn pipeline on `nodes[0]` and removes it;
on an empty queue it only logs `"execute_next_node: No Node to execute"`
(spec kind `NoManeuverPlanned`) — no exception, no vehicle action.  Returns
the node queue after the call, the vehicle actions performed, and the error
reports. -/
def execute_next_node (nodes : List NodeParams) :
    List NodeParams × List VesselAction × List LogReport :=
  match nodes with
  | [] => ([], [], [.noManeuverPlanned])
  | _ :: rest =>
    (rest,
     [.alignWithNode, .warpToBurnStart, .executeBurn, .removeNode],
     [])

/-- Rational stand-in for the double `math.pi` (a runtime rational); no claim
depends on its numeric value. -/
def piFloat : ℚ := 3.141592653589793

/-- Python's float `%` (floored modulo, result signed like the divisor); the
divisor is an orbital period, nonzero in every use. -/
def pymod (x p : ℚ) : ℚ := x - p * ⌊x / p⌋

/-- `math.degrees`. -/
def degreesF (x : ℚ) : ℚ := x * 180 / piFloat

/-- Queries `inclination_change` makes against the live vessel/orbit, plus the
orbit-preview oracle for hypothetical nodes (`node.orbit.inclination`, in
radians, as a function of the node parameters). -/
structure OrbitEnv where
  ut : ℚ
  argumentOfPeriapsis : ℚ
  period : ℚ
  inclination : ℚ
  utAtTrueAnomaly : ℚ → ℚ
  previewInclination : NodeParams → ℚ

/-- `KrpcUtilities.time_ascending_descending_nodes`
(`src/krpcutils.py` lines 306–336). -/
def time_ascending_descending_nodes (env : OrbitEnv) (delta_time : Bool) :
    ℚ × ℚ :=
  let ap := env.argumentOfPeriapsis
  let tau := piFloat * 2
  let period := env.period
  let peri_to_an := tau - ap
  let peri_to_dn :=
    if peri_to_an ≥ piFloat then peri_to_an - piFloat else peri_to_an + piFloat
  let time_now := env.ut
  let time_an := pymod (env.utAtTrueAnomaly peri_to_an - time_now) period
  let time_dn := pymod (env.utAtTrueAnomaly peri_to_dn - time_now) period
  if delta_time then (time_an, time_dn)
  else (time_an + time_now, time_dn + time_now)

/-- The score closure of `KrpcUtilities.score_inclination`
(`src/krpcutils.py` lines 535–552): add a transient node
`[target_time, 0, 0, data[0]]`, read back its previewed inclination in
degrees, score `abs(target - inclination)`, remove the node (a no-op in the
oracle view).  Call sites pass singleton lists, so `data[0]` is `data.getD 0 0`. -/
def score_inclination (env : OrbitEnv) (target_inclination target_time : ℚ)
    (data : List ℚ) : ℚ :=
  let node := add_node [target_time, 0, 0, data.getD 0 0]
  let inclination := degreesF (env.previewInclination node)
  |target_inclination - inclination|

/-- `KrpcUtilities.inclination_change` (`src/krpcutils.py` lines 554–572):
compute the absolute times of the ascending and descending nodes, pick the
descending node when `inclination > math.degrees(orbit.inclination)` and the
ascending node otherwise, optimize a single normal-burn component from `[0]`,
and commit `add_node([node_time, 0, 0, data])`.  `none` when the optimizer's
fuel runs out. -/
def inclination_change (env : OrbitEnv) (fuel : ℕ) (inclination : ℚ) :
    Option NodeParams :=
  let anDn := time_ascending_descending_nodes env false
  let node_time :=
    if degreesF env.inclination < inclination then anDn.2 else anDn.1
  let sf := score_inclination env inclination node_time
  (hill_climb fuel [0] sf).map (fun d => add_node [node_time, 0, 0, d.getD 0 0])

/-! ## `src/circularise.py` — the circularization workflow -/

/-- Queries `Circularise` makes: truthiness of `self.conn.vessel()`, current
universal time, the vessel's `orbit.time_to_apoapsis`, and the eccentricity
preview of a hypothetical node. -/
structure CircEnv where
  vesselPresent : Bool
  ut : ℚ
  timeToApoapsis : ℚ
  previewEccentricity : NodeParams → ℚ

/-- `Circularise.score_eccenticity` (`src/circularise.py` lines 14–32) on the
vessel-present path (the only path `do_circularisation` exercises): add a
transient node `[ut + time_to_apoapsis, data[0]]`, read the previewed orbit's
eccentricity, remove the node.  The optimizer always passes singleton lists,
so `data[0]` is `data.getD 0 0`. -/
def score_eccenticity (env : CircEnv) (data : List ℚ) : ℚ :=
  env.previewEccentricity (add_node [env.ut + env.timeToApoapsis, data.getD 0 0])

/-- The attribute `vessel` the would-be committed node needs from the vessel. -/
structure VesselAttr where
  timeToApoapsis : ℚ

/-- The Python attribute lookup `self.vessel` on a `Circularise` instance.
`Circularise.__init__` (`src/circularise.py` lines 9–12) binds exactly
`conn`, `utils` and `logger`, and neither the instance nor the class defines
`vessel`, so the lookup fails with `AttributeError`.  (`KrpcUtilities` does
set a `self.vessel`; `Circularise` is a distinct class and does not.) -/
def circulariseVesselAttr : Option VesselAttr := none

/-- Python exceptions surfaced by the embedded fragment. -/
inductive PyError
  | attributeError
deriving DecidableEq

/-- What a completed `do_circularisation` yields: the committed node (if any),
whether burn execution (`execute_next_node`) was reached, and log reports. -/
structure CircOutcome where
  committed : Option NodeParams
  burnExecuted : Bool
  reports : List LogReport
deriving DecidableEq

/-- `Circularise.do_circularisation` (`src/circularise.py` lines 34–53):
with a vessel present, run `hill_climb([0], score_eccenticity)` and take
element `[0]`, then evaluate
`self.conn.space_center().ut + self.vessel.orbit.time_to_apoapsis` for the
committed node — whose `self.vessel` lookup is `circulariseVesselAttr` —
then `add_node` and `execute_next_node`.  With no vessel, only log.  The outer
`Option` is the optimizer's fuel. -/
def do_circularisation (env : CircEnv) (fuel : ℕ) :
    Option (Except PyError CircOutcome) :=
  if env.vesselPresent then
    (hill_climb fuel [0] (score_eccenticity env)).map (fun best =>
      let delta_v := best.getD 0 0
      match circulariseVesselAttr with
      | none => Except.error PyError.attributeError
      | some v =>
        Except.ok
          ⟨some (add_node [env.ut + v.timeToApoapsis, delta_v]), true, []⟩)
  else
    some (Except.ok ⟨none, false, [LogReport.noVesselToCircularise]⟩)

/-- Concrete environment witnessing the `do_circularisation` failure: a vessel
is present, `ut = 0`, `time_to_apoapsis = 10`, and the eccentricity preview of
every hypothetical node is `0`. -/
def circEnvBug : CircEnv := ⟨true, 0, 10, fun _ => 0⟩

/-- Concrete environment for evaluating `inclination_change`: all orbital
queries return `0` except a period of `1`. -/
def orbitEnvFlat : OrbitEnv := ⟨0, 0, 1, 0, fun _ => 0, fun _ => 0⟩

/-! ## Properties of the inner scoring scan -/

theorem scanStep_score_le (f : List ℚ → ℚ) (acc : List ℚ × ℚ × Bool) (c : List ℚ) :
    (scanStep f acc c).2.1 ≤ acc.2.1 := by
  unfold scanStep
  split
  · exact le_of_lt (by assumption)
  · exact le_refl _

theorem foldl_scanStep_score_le (f : List ℚ → ℚ) (cands : List (List ℚ)) :
    ∀ acc : List ℚ × ℚ × Bool, (cands.foldl (scanStep f) acc).2.1 ≤ acc.2.1 := by
  induction cands with
  | nil => intro acc; exact le_refl _
  | cons c cs ih =>
    intro acc
    exact le_trans (ih (scanStep f acc c)) (scanStep_score_le f acc c)

theorem foldl_scanStep_flag_mono (f : List ℚ → ℚ) (cands : List (List ℚ)) :
    ∀ acc : List ℚ × ℚ × Bool, acc.2.2 = true →
      (cands.foldl (scanStep f) acc).2.2 = true := by
  induction cands with
  | nil => intro acc h; exact h
  | cons c cs ih =>
    intro acc h
    refine ih (scanStep f acc c) ?_
    unfold scanStep
    split
    · rfl
    · exact h

theorem foldl_scanStep_flag_iff (f : List ℚ → ℚ) (cands : List (List ℚ)) :
    ∀ acc : List ℚ × ℚ × Bool,
      ((cands.foldl (scanStep f) acc).2.2 = true ↔
        acc.2.2 = true ∨ ∃ c ∈ cands, f c < acc.2.1) := by
  induction cands with
  | nil => intro acc; simp
  | cons c cs ih =>
    intro acc
    by_cases h : f c < acc.2.1
    · constructor
      · intro _
        exact Or.inr ⟨c, List.mem_cons_self c cs, h⟩
      · intro _
        simp only [List.foldl_cons]
        refine foldl_scanStep_flag_mono f cs (scanStep f acc c) ?_
        unfold scanStep
        rw [if_pos h]
    · have hstep : scanStep f acc c = acc := by
        unfold scanStep
        rw [if_neg h]
      simp only [List.foldl_cons, hstep, ih acc]
      constructor
      · rintro (hf | ⟨c', hc', hlt⟩)
        · exact Or.inl hf
        · exact Or.inr ⟨c', List.mem_cons_of_mem c hc', hlt⟩
      · rintro (hf | ⟨c', hc', hlt⟩)
        · exact Or.inl hf
        · rcases List.mem_cons.mp hc' with rfl | hc'
          · exact absurd hlt h
          · exact Or.inr ⟨c', hc', hlt⟩

theorem foldl_scanStep_cases (f : List ℚ → ℚ) (cands : List (List ℚ)) :
    ∀ acc : List ℚ × ℚ × Bool,
      cands.foldl (scanStep f) acc = acc ∨
        ((cands.foldl (scanStep f) acc).1 ∈ cands ∧
          f (cands.foldl (scanStep f) acc).1 = (cands.foldl (scanStep f) acc).2.1 ∧
          (cands.foldl (scanStep f) acc).2.2 = true) := by
  induction cands with
  | nil => intro acc; exact Or.inl rfl
  | cons c cs ih =>
    intro acc
    by_cases h : f c < acc.2.1
    · have hstep : scanStep f acc c = (c, f c, true) := by
        unfold scanStep
        rw [if_pos h]
      simp only [List.foldl_cons, hstep]
      rcases ih (c, f c, true) with heq | ⟨hmem, hf, hflag⟩
      · refine Or.inr ?_
        rw [heq]
        exact ⟨List.mem_cons_self c cs, rfl, rfl⟩
      · exact Or.inr ⟨List.mem_cons_of_mem c hmem, hf, hflag⟩
    · have hstep : scanStep f acc c = acc := by
        unfold scanStep
        rw [if_neg h]
      simp only [List.foldl_cons, hstep]
      rcases ih acc with heq | ⟨hmem, hf, hflag⟩
      · exact Or.inl heq
      · exact Or.inr ⟨List.mem_cons_of_mem c hmem, hf, hflag⟩

theorem foldl_scanStep_score_le_all (f : List ℚ → ℚ) (cands : List (List ℚ)) :
    ∀ acc : List ℚ × ℚ × Bool, ∀ c ∈ cands,
      (cands.foldl (scanStep f) acc).2.1 ≤ f c := by
  induction cands with
  | nil => intro acc c hc; exact absurd hc (List.not_mem_nil c)
  | cons c cs ih =>
    intro acc c' hc'
    rcases List.mem_cons.mp hc' with rfl | hc'
    · refine le_trans (foldl_scanStep_score_le f cs (scanStep f acc c')) ?_
      unfold scanStep
      split
      · exact le_refl _
      · exact le_of_not_lt (by assumption)
    · exact ih (scanStep f acc c) c' hc'

/-- **C2 (amended).**  One pass of the inner scoring loop
(`src/hillclimb.py` lines 42–48) compares each candidate against the *running*
score and adopts every strict improvement as it continues the scan.  Hence:
`improved` is set iff some candidate scores strictly below the incoming
`current_score`; when nothing improves, best and score are left unchanged; and
when something improves, the state the inner loop repeats from is a candidate
achieving the minimum score over all candidates — strictly below the incoming
score, but not in general the *first* improving candidate in generation
order. -/
theorem scanCandidates_adoption (f : List ℚ → ℚ) (cands : List (List ℚ))
    (best : List ℚ) (sc : ℚ) :
    ((scanCandidates f cands best sc).2.2 = true ↔ ∃ c ∈ cands, f c < sc)
    ∧ ((scanCandidates f cands best sc).2.2 = false →
        scanCandidates f cands best sc = (best, sc, false))
    ∧ ((scanCandidates f cands best sc).2.2 = true →
        (scanCandidates f cands best sc).1 ∈ cands
        ∧ f (scanCandidates f cands best sc).1 = (scanCandidates f cands best sc).2.1
        ∧ (scanCandidates f cands best sc).2.1 < sc
        ∧ ∀ c ∈ cands, (scanCandidates f cands best sc).2.1 ≤ f c) := by
  unfold scanCandidates
  refine ⟨?_, ?_, ?_⟩
  · simpa using foldl_scanStep_flag_iff f cands (best, sc, false)
  · intro hflag
    rcases foldl_scanStep_cases f cands (best, sc, false) with heq | ⟨_, _, htrue⟩
    · exact heq
    · rw [htrue] at hflag; cases hflag
  · intro hflag
    rcases foldl_scanStep_cases f cands (best, sc, false) with heq | ⟨hmem, hf, _⟩
    · rw [heq] at hflag; cases hflag
    · refine ⟨hmem, hf, ?_, foldl_scanStep_score_le_all f cands (best, sc, false)⟩
      have hex : ∃ c ∈ cands, f c < sc := by
        have := foldl_scanStep_flag_iff f cands (best, sc, false)
        simpa [hflag] using this
      rcases hex with ⟨c, hc, hlt⟩
      exact lt_of_le_of_lt (foldl_scanStep_score_le_all f cands (best, sc, false) c hc) hlt

/-- Witness for C2's amended theorem at a concrete input: on `tieBreakScore`
from `[0]`, the scan sets `improved`. -/
theorem scanCandidates_adoption_witness :
    (scanCandidates tieBreakScore (genCandidates [0] 1 100) [0]
      (tieBreakScore [0])).2.2 = true :=
  (scanCandidates_adoption tieBreakScore (genCandidates [0] 1 100) [0]
      (tieBreakScore [0])).1.mpr
    ⟨[100], by norm_num [genCandidates, applyMask, applyMaskFrom, List.range'],
      by norm_num [tieBreakScore]⟩

/-- **C2 (counterexample).**  With `tieBreakScore` and current best `[0]` at
step `100`, the first improving candidate in generation order is `[100]`
(score `5 < 10`), yet the scan of lines 42–48 keeps scanning and ends on
`[-100]` (score `3`), and the inner loop repeats from `[-100]`, settling
there — not on the first improving candidate `[100]`. -/
theorem scanCandidates_not_first_improving :
    (genCandidates [0] 1 100).find?
        (fun c => decide (tieBreakScore c < tieBreakScore [0])) = some [100]
    ∧ (scanCandidates tieBreakScore (genCandidates [0] 1 100) [0]
        (tieBreakScore [0])).1 = [-100]
    ∧ (scanCandidates tieBreakScore (genCandidates [0] 1 100) [0]
        (tieBreakScore [0])).2.2 = true
    ∧ innerLoop tieBreakScore 100 1 2 [0] (tieBreakScore [0]) = some ([-100], 3)
    ∧ ([-100] : List ℚ) ≠ [100] := by
  norm_num [genCandidates, applyMask, applyMaskFrom, List.range', scanCandidates,
    scanStep, tieBreakScore, innerLoop]

/-! ## Monotonicity of `hill_climb` (C4) and the empty vector (C9) -/

theorem innerLoop_invariant (f : List ℚ → ℚ) (stepv : ℚ) (n : ℕ) :
    ∀ fuel best sc b' s', innerLoop f stepv n fuel best sc = some (b', s') →
      s' ≤ sc ∧ (f best = sc → f b' = s') := by
  intro fuel
  induction fuel with
  | zero => intro best sc b' s' h; cases h
  | succ fuel ih =>
    intro best sc b' s' h
    simp only [innerLoop] at h
    by_cases hflag : (scanCandidates f (genCandidates best n stepv) best sc).2.2 = true
    · rw [if_pos hflag] at h
      have hadopt := (scanCandidates_adoption f (genCandidates best n stepv) best sc).2.2 hflag
      have hrec := ih _ _ _ _ h
      refine ⟨le_trans hrec.1 (le_of_lt hadopt.2.2.1), fun _ => hrec.2 hadopt.2.1⟩
    · rw [if_neg hflag] at h
      have hid := (scanCandidates_adoption f (genCandidates best n stepv) best sc).2.1
        (by simpa using hflag)
      rw [hid] at h
      have hb : best = b' := congrArg Prod.fst (Option.some.inj h)
      have hs : sc = s' := congrArg (fun p => p.2) (Option.some.inj h)
      subst hb
      subst hs
      exact ⟨le_refl _, fun hf => hf⟩

theorem hillClimbFold_invariant (f : List ℚ → ℚ) (n fuel : ℕ) :
    ∀ (steps : List ℚ) (st st' : List ℚ × ℚ),
      steps.foldlM (fun st stepv => innerLoop f stepv n fuel st.1 st.2) st = some st' →
      st'.2 ≤ st.2 ∧ (f st.1 = st.2 → f st'.1 = st'.2) := by
  intro steps
  induction steps with
  | nil =>
    intro st st' h
    have : st = st' := Option.some.inj h
    subst this
    exact ⟨le_refl _, fun hf => hf⟩
  | cons s ss ih =>
    intro st st' h
    simp only [List.foldlM_cons] at h
    cases hstep : innerLoop f s n fuel st.1 st.2 with
    | none => rw [hstep] at h; cases h
    | some st1 =>
      rw [hstep] at h
      have h1 := innerLoop_invariant f s n fuel st.1 st.2 st1.1 st1.2 (by
        simpa using hstep)
      have h2 := ih st1 st' h
      exact ⟨le_trans h2.1 h1.1, fun hf => h2.2 (h1.2 hf)⟩

/-- **C4.**  Whenever `hill_climb` returns (the fuel-indexed embedding of its
`while` loops terminating), the score of the returned vector is at most the
score of the initial guess: `current_score` starts at `score(data)`, every
adoption strictly lowers it, and `current_best` always scores
`current_score`. -/
theorem hill_climb_score_nonincreasing (data : List ℚ) (f : List ℚ → ℚ)
    (fuel : ℕ) (res : List ℚ) (h : hill_climb fuel data f = some res) :
    f res ≤ f data := by
  unfold hill_climb at h
  rcases Option.map_eq_some'.mp h with ⟨st', hfold, hres⟩
  have hinv := hillClimbFold_invariant f data.length fuel stepSchedule
    (data, f data) st' hfold
  have hscore : f st'.1 = st'.2 := hinv.2 rfl
  rw [← hres, hscore]
  exact hinv.1

/-- Witness for C4: on `tieBreakScore` from `[0]` with fuel `2`, `hill_climb`
returns `[-100]`, whose score `3` is at most the initial score `10`. -/
theorem hill_climb_score_nonincreasing_witness :
    tieBreakScore [-100] ≤ tieBreakScore [0] :=
  hill_climb_score_nonincreasing [0] tieBreakScore 2 [-100] (by
    norm_num [hill_climb, stepSchedule, innerLoop, scanCandidates, scanStep,
      genCandidates, applyMask, applyMaskFrom, List.range', tieBreakScore])

/-- **C9.**  For the empty parameter vector, `range(1, 2 ** 0)` is empty, so an
inner iteration generates no candidates at any step, never improves, and
`hill_climb` returns the initial empty vector (no error). -/
theorem hill_climb_empty_vector (f : List ℚ → ℚ) (stepv : ℚ) (fuel : ℕ)
    (hfuel : 1 ≤ fuel) :
    genCandidates [] 0 stepv = [] ∧ hill_climb fuel [] f = some [] := by
  refine ⟨rfl, ?_⟩
  cases fuel with
  | zero => cases hfuel
  | succ k =>
    simp [hill_climb, stepSchedule, innerLoop, scanCandidates, genCandidates]

/-- Witness for C9 at fuel `1` and the constant-zero score. -/
theorem hill_climb_empty_vector_witness :
    genCandidates [] 0 100 = [] ∧ hill_climb 1 [] (fun _ => 0) = some [] :=
  hill_climb_empty_vector (fun _ => 0) 100 1 (le_refl 1)

/-! ## Candidate generation is the signed powerset (C3) -/

theorem foldl_append_eq_flatMap {α β : Type} (p : α → List β) :
    ∀ (l : List α) (acc : List β),
      l.foldl (fun a c => a ++ p c) acc = acc ++ l.flatMap p := by
  intro l
  induction l with
  | nil => intro acc; simp
  | cons c cs ih => intro acc; simp [ih]

theorem genCandidates_eq_flatMap (best : List ℚ) (n : ℕ) (stepv : ℚ) :
    genCandidates best n stepv = (List.range' 1 (2 ^ n - 1)).flatMap
      (fun c => [applyMask c.testBit stepv best, applyMask c.testBit (-stepv) best]) := by
  unfold genCandidates
  simpa using foldl_append_eq_flatMap
    (fun c => [applyMask c.testBit stepv best, applyMask c.testBit (-stepv) best])
    (List.range' 1 (2 ^ n - 1)) []

theorem flatMap_pair_length {α β : Type} (p q : α → β) :
    ∀ l : List α, (l.flatMap (fun c => [p c, q c])).length = 2 * l.length := by
  intro l
  induction l with
  | nil => rfl
  | cons c cs ih => simp only [List.flatMap_cons, List.length_append, ih,
      List.length_cons, List.length_nil, List.length_cons]; omega

theorem applyMaskFrom_congr (p q : ℕ → Bool) (δ : ℚ) :
    ∀ (v : List ℚ) (i : ℕ), (∀ b, i ≤ b → b < i + v.length → p b = q b) →
      applyMaskFrom p δ i v = applyMaskFrom q δ i v := by
  intro v
  induction v with
  | nil => intro i _; rfl
  | cons x xs ih =>
    intro i hpq
    unfold applyMaskFrom
    rw [hpq i (le_refl i) (by simp), ih (i + 1) (fun b hb1 hb2 => hpq b (by omega) (by
      simp only [List.length_cons]; omega))]

theorem applyMask_congr (p q : ℕ → Bool) (δ : ℚ) (v : List ℚ)
    (h : ∀ b, b < v.length → p b = q b) : applyMask p δ v = applyMask q δ v :=
  applyMaskFrom_congr p q δ v 0 (fun b _ hb2 => h b (by omega))

theorem applyMaskFrom_getD (p : ℕ → Bool) (δ : ℚ) :
    ∀ (v : List ℚ) (i j : ℕ), j < v.length →
      (applyMaskFrom p δ i v).getD j 0 =
        if p (i + j) then v.getD j 0 + δ else v.getD j 0 := by
  intro v
  induction v with
  | nil => intro i j h; cases h
  | cons x xs ih =>
    intro i j hj
    cases j with
    | zero => simp [applyMaskFrom]
    | succ j' =>
      have hj' : j' < xs.length := by simpa using hj
      have : i + (j' + 1) = (i + 1) + j' := by omega
      simp only [applyMaskFrom, List.getD_cons_succ, ih (i + 1) j' hj', this]

theorem applyMask_getD (p : ℕ → Bool) (δ : ℚ) (v : List ℚ) (j : ℕ)
    (hj : j < v.length) :
    (applyMask p δ v).getD j 0 = if p j then v.getD j 0 + δ else v.getD j 0 := by
  have := applyMaskFrom_getD p δ v 0 j hj
  simpa [applyMask] using this

theorem testBit_high_false {c n : ℕ} (hc : c < 2 ^ n) :
    ∀ i, n ≤ i → c.testBit i = false := fun i hi =>
  Nat.testBit_lt_two_pow (lt_of_lt_of_le hc (Nat.pow_le_pow_right (by omega) hi))

theorem exists_mask_of_finset (n : ℕ) (S : Finset ℕ) :
    ∃ c : ℕ, c < 2 ^ n ∧ ∀ b : ℕ, b < n → c.testBit b = decide (b ∈ S) := by
  classical
  set F : Fin (2 ^ n) → Finset (Fin n) :=
    fun c => Finset.univ.filter (fun b : Fin n => (c : ℕ).testBit b.1) with hF
  have hinj : Function.Injective F := by
    intro c c' h
    apply Fin.ext
    apply Nat.eq_of_testBit_eq
    intro i
    by_cases hi : i < n
    · have hmem := congrArg (fun s => (⟨i, hi⟩ : Fin n) ∈ s) h
      simp only [hF, Finset.mem_filter, Finset.mem_univ, true_and, eq_iff_iff] at hmem
      cases hb : (c : ℕ).testBit i
      · cases hb' : (c' : ℕ).testBit i
        · rfl
        · rw [hb, hb'] at hmem; simp at hmem
      · cases hb' : (c' : ℕ).testBit i
        · rw [hb, hb'] at hmem; simp at hmem
        · rfl
    · rw [testBit_high_false c.2 i (by omega), testBit_high_false c'.2 i (by omega)]
  have hcard : Fintype.card (Fin (2 ^ n)) = Fintype.card (Finset (Fin n)) := by
    simp [Fintype.card_fin, Fintype.card_finset]
  have hbij := (Fintype.bijective_iff_injective_and_card F).mpr ⟨hinj, hcard⟩
  obtain ⟨c, hc⟩ := hbij.2 (Finset.univ.filter (fun b : Fin n => b.1 ∈ S))
  refine ⟨c.1, c.2, ?_⟩
  intro b hb
  have hmem := congrArg (fun s => (⟨b, hb⟩ : Fin n) ∈ s) hc
  simp only [hF, Finset.mem_filter, Finset.mem_univ, true_and, eq_iff_iff] at hmem
  cases h : (c : ℕ).testBit b
  · rw [h] at hmem
    have : ¬ b ∈ S := fun hbS => by simp [hbS] at hmem
    simp [this]
  · rw [h] at hmem
    have : b ∈ S := by simpa using hmem.mp rfl
    simp [this]

/-- **C3.**  At every step and from every current best of length `N ≥ 1`, one
inner iteration of `hill_climb` generates exactly `2 * (2^N - 1)` candidates:
for every non-empty subset `S` of the `N` dimensions, the vector with every
dimension in `S` incremented by the step and the one with every dimension in
`S` decremented by it both occur; conversely every generated candidate is of
this form, and (for a nonzero step) distinct subsets give distinct
candidates. -/
theorem genCandidates_powerset (best : List ℚ) (n : ℕ) (stepv : ℚ)
    (hlen : best.length = n) (hn : 1 ≤ n) :
    (genCandidates best n stepv).length = 2 * (2 ^ n - 1)
    ∧ (∀ S : Finset ℕ, S.Nonempty → (∀ b ∈ S, b < n) →
        specSubsetPerturb S stepv best ∈ genCandidates best n stepv
        ∧ specSubsetPerturb S (-stepv) best ∈ genCandidates best n stepv)
    ∧ (∀ v ∈ genCandidates best n stepv,
        ∃ S : Finset ℕ, S.Nonempty ∧ (∀ b ∈ S, b < n)
          ∧ (v = specSubsetPerturb S stepv best ∨ v = specSubsetPerturb S (-stepv) best))
    ∧ (∀ S T : Finset ℕ, (∀ b ∈ S, b < n) → (∀ b ∈ T, b < n) →
        ∀ δ : ℚ, δ ≠ 0 →
          specSubsetPerturb S δ best = specSubsetPerturb T δ best → S = T) := by
  have hpow : 1 ≤ 2 ^ n := Nat.one_le_two_pow
  refine ⟨?_, ?_, ?_, ?_⟩
  · rw [genCandidates_eq_flatMap, flatMap_pair_length, List.length_range']
  · intro S hS hbound
    obtain ⟨c, hclt, hcbit⟩ := exists_mask_of_finset n S
    have hcpos : 1 ≤ c := by
      rcases hS with ⟨b, hbS⟩
      have hb : b < n := hbound b hbS
      have : c.testBit b = true := by rw [hcbit b hb]; simp [hbS]
      rcases Nat.eq_zero_or_pos c with rfl | hpos
      · rw [Nat.zero_testBit] at this; cases this
      · omega
    have hcmem : c ∈ List.range' 1 (2 ^ n - 1) := by
      rw [List.mem_range'_1]
      omega
    have heq : ∀ δ : ℚ, specSubsetPerturb S δ best = applyMask c.testBit δ best := by
      intro δ
      exact applyMask_congr _ _ δ best (fun b hb => by
        rw [hcbit b (by omega)])
    constructor
    · rw [genCandidates_eq_flatMap, List.mem_flatMap]
      exact ⟨c, hcmem, by rw [heq]; simp⟩
    · rw [genCandidates_eq_flatMap, List.mem_flatMap]
      exact ⟨c, hcmem, by rw [heq]; simp⟩
  · intro v hv
    rw [genCandidates_eq_flatMap, List.mem_flatMap] at hv
    obtain ⟨c, hcmem, hvc⟩ := hv
    rw [List.mem_range'_1] at hcmem
    have hclt : c < 2 ^ n := by omega
    refine ⟨(Finset.range n).filter (fun b => c.testBit b), ?_, ?_, ?_⟩
    · rw [Finset.nonempty_iff_ne_empty]
      intro hempty
      have hall : ∀ b, c.testBit b = false := by
        intro b
        by_cases hb : b < n
        · by_contra hbit
          have : b ∈ (Finset.range n).filter (fun b => c.testBit b) := by
            simp only [Finset.mem_filter, Finset.mem_range]
            exact ⟨hb, by simpa using hbit⟩
          rw [hempty] at this
          cases this
        · exact testBit_high_false hclt b (by omega)
      have : c = 0 := Nat.eq_of_testBit_eq (fun i => by rw [hall i, Nat.zero_testBit])
      omega
    · intro b hb
      simp only [Finset.mem_filter, Finset.mem_range] at hb
      exact hb.1
    · have heq : ∀ δ : ℚ,
          specSubsetPerturb ((Finset.range n).filter (fun b => c.testBit b)) δ best
            = applyMask c.testBit δ best := by
        intro δ
        refine applyMask_congr _ _ δ best (fun b hb => ?_)
        simp only [Finset.mem_filter, Finset.mem_range, decide_eq_true_eq]
        have hbn : b < n := by omega
        cases hbit : c.testBit b
        · simp [hbn, hbit]
        · simp [hbn, hbit]
      simp only [List.mem_cons, List.not_mem_nil, or_false] at hvc
      rcases hvc with hvc | hvc
      · exact Or.inl (by rw [heq, hvc])
      · exact Or.inr (by rw [heq, hvc])
  · intro S T hS hT δ hδ hperturb
    apply Finset.ext
    intro b
    by_cases hb : b < n
    · have hgetd := congrArg (fun v => v.getD b 0) hperturb
      simp only [specSubsetPerturb] at hgetd
      rw [applyMask_getD _ δ best b (by omega), applyMask_getD _ δ best b (by omega)]
        at hgetd
      constructor
      · intro hbS
        by_contra hbT
        simp [hbS, hbT] at hgetd
        exact hδ hgetd
      · intro hbT
        by_contra hbS
        simp [hbS, hbT] at hgetd
        exact hδ hgetd
    · constructor
      · intro hbS; exact absurd (hS b hbS) hb
      · intro hbT; exact absurd (hT b hbT) hb

/-- Witness for C3 at `best = [0, 0]`, `N = 2`, step `100`: exactly
`2 * (2^2 - 1) = 6` candidates are generated. -/
theorem genCandidates_powerset_witness :
    (genCandidates [0, 0] 2 100).length = 2 * (2 ^ 2 - 1) :=
  (genCandidates_powerset [0, 0] 2 100 rfl (by omega)).1

/-! ## The heap-instrumented run never writes a pre-existing cell (C10) -/

theorem Heap.read_alloc_lt (h : Heap) (v : List ℚ) (a : ℕ) (ha : a < h.size) :
    (h.alloc v).1.read a = h.read a :=
  List.getD_append h.cells [v] [] a ha

theorem Heap.size_alloc (h : Heap) (v : List ℚ) :
    (h.alloc v).1.size = h.size + 1 := by
  simp [Heap.alloc, Heap.size]

theorem Heap.read_write_ne (h : Heap) (av : ℕ) (v : List ℚ) (a : ℕ) (ha : a ≠ av) :
    (h.write av v).read a = h.read a := by
  simp only [Heap.write, Heap.read, List.getD_eq_getElem?_getD]
  rw [List.getElem?_set_ne (fun hav => ha hav.symm)]

theorem Heap.size_write (h : Heap) (av : ℕ) (v : List ℚ) :
    (h.write av v).size = h.size := by
  simp [Heap.write, Heap.size]

theorem Heap.read_addAt_ne (h : Heap) (av b : ℕ) (δ : ℚ) (a : ℕ) (ha : a ≠ av) :
    (h.addAt av b δ).read a = h.read a :=
  Heap.read_write_ne h av _ a ha

theorem Heap.size_addAt (h : Heap) (av b : ℕ) (δ : ℚ) :
    (h.addAt av b δ).size = h.size :=
  Heap.size_write h av _

theorem incDecFold_frame (aInc aDec : ℕ) (stepv : ℚ) (c : ℕ) :
    ∀ (l : List ℕ) (hh : Heap) (a : ℕ), a ≠ aInc → a ≠ aDec →
      ((l.foldl
          (fun hh b =>
            if c.testBit b then (hh.addAt aInc b stepv).addAt aDec b (-stepv) else hh)
          hh).read a = hh.read a
       ∧ (l.foldl
          (fun hh b =>
            if c.testBit b then (hh.addAt aInc b stepv).addAt aDec b (-stepv) else hh)
          hh).size = hh.size) := by
  intro l
  induction l with
  | nil => intro hh a _ _; exact ⟨rfl, rfl⟩
  | cons b bs ih =>
    intro hh a hInc hDec
    simp only [List.foldl_cons]
    by_cases hbit : c.testBit b
    · rw [if_pos hbit]
      rcases ih ((hh.addAt aInc b stepv).addAt aDec b (-stepv)) a hInc hDec with ⟨hr, hs⟩
      refine ⟨?_, ?_⟩
      · rw [hr, Heap.read_addAt_ne _ _ _ _ _ hDec, Heap.read_addAt_ne _ _ _ _ _ hInc]
      · rw [hs, Heap.size_addAt, Heap.size_addAt]
    · rw [if_neg hbit]
      exact ih hh a hInc hDec

theorem buildCandidatePair_frame (h : Heap) (aBest n : ℕ) (stepv : ℚ) (c : ℕ) :
    (∀ a < h.size, (buildCandidatePair h aBest n stepv c).1.read a = h.read a)
    ∧ (buildCandidatePair h aBest n stepv c).1.size = h.size + 2 := by
  unfold buildCandidatePair
  simp only
  have hInc : (h.alloc (h.read aBest)).2 = h.size := rfl
  have hDec : ((h.alloc (h.read aBest)).1.alloc
      ((h.alloc (h.read aBest)).1.read aBest)).2 = h.size + 1 := by
    show (h.alloc (h.read aBest)).1.cells.length = h.size + 1
    exact Heap.size_alloc h _
  constructor
  · intro a ha
    rcases incDecFold_frame (h.alloc (h.read aBest)).2
        ((h.alloc (h.read aBest)).1.alloc ((h.alloc (h.read aBest)).1.read aBest)).2
        stepv c (List.range n)
        ((h.alloc (h.read aBest)).1.alloc ((h.alloc (h.read aBest)).1.read aBest)).1
        a (by omega) (by omega) with ⟨hr, _⟩
    rw [hr, Heap.read_alloc_lt _ _ a (by rw [Heap.size_alloc]; omega),
      Heap.read_alloc_lt _ _ a ha]
  · rcases incDecFold_frame (h.alloc (h.read aBest)).2
        ((h.alloc (h.read aBest)).1.alloc ((h.alloc (h.read aBest)).1.read aBest)).2
        stepv c (List.range n)
        ((h.alloc (h.read aBest)).1.alloc ((h.alloc (h.read aBest)).1.read aBest)).1
        (h.size + 2) (by omega) (by omega) with ⟨_, hs⟩
    rw [hs, Heap.size_alloc, Heap.size_alloc]

theorem genFoldHeap_frame (aBest n : ℕ) (stepv : ℚ) :
    ∀ (masks : List ℕ) (st : Heap × List ℕ) (a : ℕ), a < st.1.size →
      ((masks.foldl
          (fun st c =>
            let r := buildCandidatePair st.1 aBest n stepv c
            (r.1, st.2 ++ [r.2.1, r.2.2]))
          st).1.read a = st.1.read a
       ∧ st.1.size ≤ (masks.foldl
          (fun st c =>
            let r := buildCandidatePair st.1 aBest n stepv c
            (r.1, st.2 ++ [r.2.1, r.2.2]))
          st).1.size) := by
  intro masks
  induction masks with
  | nil => intro st a ha; exact ⟨rfl, le_refl _⟩
  | cons c cs ih =>
    intro st a ha
    simp only [List.foldl_cons]
    rcases buildCandidatePair_frame st.1 aBest n stepv c with ⟨hread, hsize⟩
    have ha' : a < (buildCandidatePair st.1 aBest n stepv c).1.size := by
      rw [hsize]; omega
    rcases ih ((buildCandidatePair st.1 aBest n stepv c).1,
        st.2 ++ [(buildCandidatePair st.1 aBest n stepv c).2.1,
          (buildCandidatePair st.1 aBest n stepv c).2.2]) a ha' with ⟨hr, hs⟩
    refine ⟨?_, ?_⟩
    · rw [hr]; exact hread a ha
    · refine le_trans ?_ hs
      rw [hsize]; omega

theorem genCandidatesHeap_frame (h : Heap) (aBest n : ℕ) (stepv : ℚ) (a : ℕ)
    (ha : a < h.size) :
    (genCandidatesHeap h aBest n stepv).1.read a = h.read a
    ∧ h.size ≤ (genCandidatesHeap h aBest n stepv).1.size := by
  unfold genCandidatesHeap
  exact genFoldHeap_frame aBest n stepv (List.range' 1 (2 ^ n - 1)) (h, []) a ha

theorem innerLoopHeap_frame (f : List ℚ → ℚ) (stepv : ℚ) (n : ℕ) :
    ∀ (fuel : ℕ) (h : Heap) (aBest : ℕ) (sc : ℚ) (a : ℕ), a < h.size →
      ((innerLoopHeap f stepv n fuel h aBest sc).1.read a = h.read a
       ∧ h.size ≤ (innerLoopHeap f stepv n fuel h aBest sc).1.size) := by
  intro fuel
  induction fuel with
  | zero => intro h aBest sc a ha; exact ⟨rfl, le_refl _⟩
  | succ fuel ih =>
    intro h aBest sc a ha
    simp only [innerLoopHeap]
    rcases genCandidatesHeap_frame h aBest n stepv a ha with ⟨hread, hsize⟩
    by_cases hflag : (scanCandidatesHeap f (genCandidatesHeap h aBest n stepv).1
        (genCandidatesHeap h aBest n stepv).2 aBest sc).2.2
    · rw [if_pos hflag]
      rcases ih (genCandidatesHeap h aBest n stepv).1 _ _ a (by omega) with ⟨hr, hs⟩
      exact ⟨by rw [hr, hread], by omega⟩
    · rw [if_neg hflag]
      exact ⟨hread, hsize⟩

theorem stepsFoldHeap_frame (f : List ℚ → ℚ) (n fuel : ℕ) :
    ∀ (steps : List ℚ) (st : Heap × Option (ℕ × ℚ)) (a : ℕ), a < st.1.size →
      ((steps.foldl
          (fun (st : Heap × Option (ℕ × ℚ)) stepv =>
            match st.2 with
            | none => st
            | some bs => innerLoopHeap f stepv n fuel st.1 bs.1 bs.2)
          st).1.read a = st.1.read a
       ∧ st.1.size ≤ (steps.foldl
          (fun (st : Heap × Option (ℕ × ℚ)) stepv =>
            match st.2 with
            | none => st
            | some bs => innerLoopHeap f stepv n fuel st.1 bs.1 bs.2)
          st).1.size) := by
  intro steps
  induction steps with
  | nil => intro st a ha; exact ⟨rfl, le_refl _⟩
  | cons s ss ih =>
    intro st a ha
    simp only [List.foldl_cons]
    cases hst : st.2 with
    | none =>
      rcases ih st a ha with ⟨hr, hs⟩
      exact ⟨hr, hs⟩
    | some bs =>
      rcases innerLoopHeap_frame f s n fuel st.1 bs.1 bs.2 a ha with ⟨hread, hsize⟩
      rcases ih (innerLoopHeap f s n fuel st.1 bs.1 bs.2) a (by omega) with ⟨hr, hs⟩
      exact ⟨hr.trans hread, le_trans hsize hs⟩

/-- **C10.**  `hill_climb` never mutates its argument list — or any other
pre-existing list object — in place: in the heap-instrumented embedding, every
cell allocated before the call reads the same after the call, for any fuel,
any score function and any argument address; likewise every single inner
iteration (where each accepted improvement merely rebinds `current_best` to a
freshly allocated candidate object) preserves every cell that existed when it
started. -/
theorem hill_climb_no_inplace_mutation (fuel : ℕ) (h0 : Heap) (aData : ℕ)
    (f : List ℚ → ℚ) (a : ℕ) (ha : a < h0.size) :
    (hill_climb_heap fuel h0 aData f).1.read a = h0.read a
    ∧ ∀ (stepv : ℚ) (n aBest : ℕ) (sc : ℚ),
        (innerLoopHeap f stepv n fuel h0 aBest sc).1.read a = h0.read a := by
  constructor
  · unfold hill_climb_heap
    simp only
    have hsz : a < (h0.alloc (h0.read aData)).1.size := by
      rw [Heap.size_alloc]; omega
    rcases stepsFoldHeap_frame f (h0.read aData).length fuel stepSchedule
        ((h0.alloc (h0.read aData)).1,
          some ((h0.alloc (h0.read aData)).2, f (h0.read aData)))
        a hsz with ⟨hr, _⟩
    rw [hr, Heap.read_alloc_lt _ _ a ha]
  · intro stepv n aBest sc
    exact (innerLoopHeap_frame f stepv n fuel h0 aBest sc a ha).1

/-- Witness for C10: from a heap holding only the argument `[5]` at address
`0`, the run leaves that cell intact. -/
theorem hill_climb_no_inplace_mutation_witness :
    (hill_climb_heap 1 ⟨[[5]]⟩ 0 (fun _ => 0)).1.read 0 = Heap.read ⟨[[5]]⟩ 0 :=
  (hill_climb_no_inplace_mutation 1 ⟨[[5]]⟩ 0 (fun _ => 0) 0 (by
    simp [Heap.size])).1

/-! ## The maneuver utilities (C5, C6, C7, C8) -/

/-- **C5.**  `inclination_change` commits a node with zero prograde and radial
components (only the optimizer's normal Δv), at the descending-node time
exactly when the target inclination (degrees) exceeds the vessel's current
inclination (degrees), and at the ascending-node time otherwise — both taken
from `time_ascending_descending_nodes` with absolute times. -/
theorem inclination_change_node_choice (env : OrbitEnv) (fuel : ℕ)
    (target : ℚ) (node : NodeParams)
    (h : inclination_change env fuel target = some node) :
    node.prograde = 0 ∧ node.radial = 0
    ∧ node.ut = (if degreesF env.inclination < target
        then (time_ascending_descending_nodes env false).2
        else (time_ascending_descending_nodes env false).1) := by
  unfold inclination_change at h
  rcases Option.map_eq_some'.mp h with ⟨d, _, hnode⟩
  subst hnode
  exact ⟨rfl, rfl, rfl⟩

/-- Witness for C5: in the all-zero environment with target inclination `5°`
(above the current `0°`), the committed node is at the (descending-node) time
`0` with only-normal components. -/
theorem inclination_change_node_choice_witness :
    (⟨0, 0, 0, 0⟩ : NodeParams).prograde = 0
    ∧ (⟨0, 0, 0, 0⟩ : NodeParams).radial = 0
    ∧ (⟨0, 0, 0, 0⟩ : NodeParams).ut =
        (if degreesF orbitEnvFlat.inclination < 5
         then (time_ascending_descending_nodes orbitEnvFlat false).2
         else (time_ascending_descending_nodes orbitEnvFlat false).1) :=
  inclination_change_node_choice orbitEnvFlat 1 5 ⟨0, 0, 0, 0⟩ (by
    norm_num [inclination_change, time_ascending_descending_nodes, pymod,
      degreesF, piFloat, score_inclination, add_node, orbitEnvFlat, hill_climb,
      stepSchedule, innerLoop, scanCandidates, scanStep, genCandidates,
      applyMask, applyMaskFrom, List.range'])

/-- **C6.**  `calculate_burn_time` is exactly the closed-form rocket-equation
value: with exhaust velocity `v_e = specific_impulse * 9.80665`, it returns
`(m0 - m0 / exp(Δv / v_e)) / (F / v_e)`, equivalently
`m0 * v_e * (1 - exp(-Δv / v_e)) / F`. -/
theorem calculate_burn_time_rocket_equation (force si m0 dv : ℝ)
    (hsi : si * 9.80665 ≠ 0) (hf : force ≠ 0) :
    calculate_burn_time force si m0 dv
      = (m0 - m0 / Real.exp (dv / (si * 9.80665))) / (force / (si * 9.80665))
    ∧ calculate_burn_time force si m0 dv
      = m0 * (si * 9.80665) * (1 - Real.exp (-(dv / (si * 9.80665)))) / force := by
  have h1 : calculate_burn_time force si m0 dv
      = (m0 - m0 / Real.exp (dv / (si * 9.80665))) / (force / (si * 9.80665)) := rfl
  refine ⟨h1, ?_⟩
  rw [h1, Real.exp_neg]
  have hexp : Real.exp (dv / (si * 9.80665)) ≠ 0 := Real.exp_ne_zero _
  field_simp
  ring

/-- Witness for C6, Scenario D: thrust `1000 N`, isp `300 s`, mass `1000 kg`,
Δv `500 m/s`. -/
theorem calculate_burn_time_rocket_equation_witness :
    calculate_burn_time 1000 300 1000 500
      = (1000 - 1000 / Real.exp (500 / (300 * 9.80665))) / (1000 / (300 * 9.80665))
    ∧ calculate_burn_time 1000 300 1000 500
      = 1000 * (300 * 9.80665) * (1 - Real.exp (-(500 / (300 * 9.80665)))) / 1000 :=
  calculate_burn_time_rocket_equation 1000 300 1000 500 (by norm_num) (by norm_num)

/-- **C7.**  Scenario C for `auto_stage`, starting from a freshly constructed
`KrpcUtilities` (threshold `-100`): on observed available thrust `100` the
first call only initializes the threshold to `90 = 100 - 10`; a second call at
`100` does nothing; the call observing the drop to `5 < 90` performs exactly
one staging action, after which the read `120 > 0` sets the threshold to
`110 = 120 - 10`; a further call at `120` stages nothing and keeps `110`. -/
theorem auto_stage_scenario :
    auto_stage initialAvailableThrust 100 [] = some (90, 0)
    ∧ auto_stage 90 100 [] = some (90, 0)
    ∧ auto_stage 90 5 [120] = some (110, 1)
    ∧ auto_stage 110 120 [] = some (110, 0) := by
  norm_num [auto_stage, stageLoop, initialAvailableThrust]

/-- **C8.**  `execute_next_node` on an empty node queue reports
`NoManeuverPlanned` (the logged `"No Node to execute"`), performs no vehicle
action, raises nothing (the function returns normally) and leaves the queue
unchanged; by contrast a non-empty queue triggers the full
align/warp/burn/remove pipeline on the head node. -/
theorem execute_next_node_empty_queue :
    execute_next_node [] = ([], [], [LogReport.noManeuverPlanned])
    ∧ execute_next_node [⟨0, 0, 0, 0⟩] =
        ([], [VesselAction.alignWithNode, VesselAction.warpToBurnStart,
          VesselAction.executeBurn, VesselAction.removeNode], []) :=
  ⟨rfl, rfl⟩

/-! ## The circularization workflow (C1) -/

/-- **C1 (code bug).**  With a vessel present, `do_circularisation` runs the
optimizer on `score_eccenticity` from `[0]`, but then evaluates
`self.conn.space_center().ut + self.vessel.orbit.time_to_apoapsis`
(`src/circularise.py` line 47) — and `Circularise` has no attribute `vessel`
(`__init__` binds only `conn`, `utils`, `logger`), so every run that gets past
the optimizer raises `AttributeError` before any node is committed or
executed; no `Except.ok` outcome is reachable on this path. -/
theorem do_circularisation_attribute_error (env : CircEnv) (fuel : ℕ)
    (hv : env.vesselPresent = true) :
    do_circularisation env fuel = none
    ∨ do_circularisation env fuel = some (Except.error PyError.attributeError) := by
  unfold do_circularisation
  rw [if_pos hv]
  cases hhc : hill_climb fuel [0] (score_eccenticity env) with
  | none => exact Or.inl rfl
  | some best => exact Or.inr rfl

/-- Witness for C1: in `circEnvBug` (vessel present, constant-zero
eccentricity preview) the optimizer terminates at fuel `1` and the call
evaluates to the `AttributeError` outcome — the second disjunct, concretely. -/
theorem do_circularisation_attribute_error_witness :
    circEnvBug.vesselPresent = true
    ∧ (do_circularisation circEnvBug 1 = none
        ∨ do_circularisation circEnvBug 1 = some (Except.error PyError.attributeError))
    ∧ do_circularisation circEnvBug 1 = some (Except.error PyError.attributeError) :=
  ⟨rfl, do_circularisation_attribute_error circEnvBug 1 rfl, by
    norm_num [do_circularisation, circEnvBug, circulariseVesselAttr,
      score_eccenticity, add_node, hill_climb, stepSchedule, innerLoop,
      scanCandidates, scanStep, genCandidates, applyMask, applyMaskFrom,
      List.range']⟩

end KRPC
